import Mathlib

/-!
Verification of the hat-backup deduplication core against its source.

The development shallowly embeds the Rust sources:
  * `src/key/hash_store_backend.rs` — the hash-store backend binding the
    hash index and the blob store (namespace `Hat.HSB`);
  * `src/key/index.rs` — the key index over the SQLite `keys` table
    (namespace `Hat.KeyIdx`);
  * `src/util/listdir.rs` — the parallel directory walker
    (namespace `Hat.Walk`).

The hash index and the blob store themselves are not part of the given
sources (only their callers are); where a claim depends on them they are
modelled from the specification, and each such definition is marked
`Modelled from the spec:` in its doc comment.  Machine integers are
embedded as `Nat`/`Int`; byte strings as `List Nat`; fallible Rust code
returns an explicit result type where `panicked` stands for a Rust panic
(a failed `assert!`/`expect`/`unwrap`) and `diverged` for a loop that
never terminates within the modelled trace.
-/

namespace Hat

/-- Byte strings (`Vec<u8>` / `&[u8]`): lists of byte values. -/
abbrev Bytes := List Nat

/-- `hash::Hash` — a content hash carrying its raw bytes. -/
structure Hash where
  bytes : Bytes
deriving DecidableEq, Repr

/-- `blob::Kind` — the kind tag of a stored chunk. -/
inductive Kind where
  | treeLeaf : Kind
  | treeBranch : Kind
deriving DecidableEq, Repr

/-- `blob::ChunkRef` — locator of a chunk inside a blob. -/
structure ChunkRef where
  blob_name : Bytes
  offset : Nat
  length : Nat
  kind : Kind
deriving DecidableEq, Repr

/-- `hash::Entry` — a hash-index entry as built by `insert_chunk`. -/
structure HashEntry where
  hash : Hash
  level : Int
  payload : Option Bytes
  persistent_ref : Option ChunkRef
deriving DecidableEq, Repr

/-- The Rust panics that the embedded operations can raise. -/
inductive PanicKind where
  /-- `assert!(!hash.bytes.is_empty())` failed. -/
  | emptyHash : PanicKind
  /-- `.expect("Could not find persistent_ref for known chunk.")` failed. -/
  | missingRef : PanicKind
  /-- `assert!(hash_opt.is_some() == persistent_ref_opt.is_some())` failed. -/
  | hashRefMismatch : PanicKind
  /-- `ChunkRef::from_bytes(..).unwrap()` failed in `list_dir`. -/
  | badChunkRefBytes : PanicKind
deriving DecidableEq, Repr

/-- `key::MsgError` values that reach the hash-store backend: either the
`RetryError` propagated by `try!` or an opaque blob-store error. -/
inductive MsgErr where
  | fromRetry : MsgErr
  | blobErr (code : Nat) : MsgErr
deriving DecidableEq, Repr

/-- Result of running an embedded operation: a value, a returned error,
a Rust panic, or divergence (a retry loop that never obtains an answer). -/
inductive RunResult (α : Type) where
  | ok (a : α) : RunResult α
  | err (e : MsgErr) : RunResult α
  | panicked (p : PanicKind) : RunResult α
  | diverged : RunResult α
deriving DecidableEq, Repr

namespace HSB

/-- One answer of `hash::HashIndex::fetch_persistent_ref`:
`Ok(Some(r))`, `Ok(None)`, or `Err(RetryError)`.  A list of such answers
models the successive replies the index gives to a retry loop. -/
inductive IndexAnswer where
  | found (r : ChunkRef) : IndexAnswer
  | missing : IndexAnswer
  | retry : IndexAnswer
deriving DecidableEq, Repr

/-- The retry loop of `HashStoreBackend::fetch_persistent_ref`
(src/key/hash_store_backend.rs lines 93-99): consume answers, skipping
`Retry`, until the index replies `Ok(Some)` or `Ok(None)`; `none` means
the answer stream was exhausted while still retrying. -/
def fetchRefLoop : List IndexAnswer → Option (Option ChunkRef)
  | [] => none
  | .found r :: _ => some (some r)
  | .missing :: _ => some none
  | .retry :: rest => fetchRefLoop rest

/-- `HashStoreBackend::fetch_persistent_ref`
(src/key/hash_store_backend.rs lines 91-100): assert the hash is
non-empty, then loop on the index until a non-`Retry` answer arrives. -/
def fetch_persistent_ref (h : Hash) (ans : List IndexAnswer) :
    RunResult (Option ChunkRef) :=
  if h.bytes = [] then .panicked .emptyHash
  else
    match fetchRefLoop ans with
    | some v => .ok v
    | none => .diverged

/-- Environment of a single `fetch_chunk` call: the one answer the hash
index gives (the code performs a single non-looping call there), the
blob store's `retrieve`, and the hash function `hash::Hash::new`. -/
structure FetchEnv where
  indexAnswer : IndexAnswer
  retrieve : ChunkRef → Except MsgErr (Option Bytes)
  hashFn : Bytes → Hash

/-- `HashStoreBackend::fetch_chunk_from_persistent_ref`
(src/key/hash_store_backend.rs lines 55-60). -/
def fetch_chunk_from_persistent_ref (env : FetchEnv) (r : ChunkRef) :
    RunResult (Option Bytes) :=
  match env.retrieve r with
  | .ok d => .ok d
  | .error e => .err e

/-- `HashStoreBackend::fetch_chunk_from_hash`
(src/key/hash_store_backend.rs lines 47-53): assert the hash is
non-empty; one call to the index (`try!` propagates `RetryError` as an
error); on `Some(chunk_ref)` retrieve from the blob store. -/
def fetch_chunk_from_hash (env : FetchEnv) (h : Hash) :
    RunResult (Option Bytes) :=
  if h.bytes = [] then .panicked .emptyHash
  else
    match env.indexAnswer with
    | .retry => .err .fromRetry
    | .missing => .ok none
    | .found r => fetch_chunk_from_persistent_ref env r

/-- `HashStoreBackend::fetch_chunk`
(src/key/hash_store_backend.rs lines 66-89): assert non-empty hash,
resolve the data through the given ref or through the hash index, then
verify `hash(bytes) == hash`; a mismatch yields `Ok(None)`. -/
def fetch_chunk (env : FetchEnv) (h : Hash) (persistent_ref : Option ChunkRef) :
    RunResult (Option Bytes) :=
  if h.bytes = [] then .panicked .emptyHash
  else
    let dres :=
      match persistent_ref with
      | some r => fetch_chunk_from_persistent_ref env r
      | none => fetch_chunk_from_hash env h
    match dres with
    | .ok (some data) => if h = env.hashFn data then .ok (some data) else .ok none
    | other => other

/-- State of a hash-index entry: `Reserved` (with the entry data) or
`Committed` (with the published ref). -/
inductive EState where
  | reserved (e : HashEntry) : EState
  | committed (r : ChunkRef) : EState
deriving DecidableEq, Repr

/-- The hash-index table: an association list from hash to entry state. -/
abbrev HashIdx := List (Hash × EState)

/-- Result constructors of `hash::HashIndex::reserve`. -/
inductive ReserveResult where
  | hashKnown : ReserveResult
  | reserveOk : ReserveResult
deriving DecidableEq, Repr

/-- Hashes present in the index. -/
def keysOf (idx : HashIdx) : List Hash :=
  idx.map Prod.fst

/-- Modelled from the spec: `hash::HashIndex::reserve` is not under
`src/`.  Spec 4.1: atomic; if the hash already has any entry (Reserved
or Committed) return `HashKnown`, otherwise insert a Reserved row and
return `ReserveOk`. -/
def reserve (idx : HashIdx) (e : HashEntry) : ReserveResult × HashIdx :=
  if e.hash ∈ keysOf idx then (.hashKnown, idx)
  else (.reserveOk, (e.hash, .reserved e) :: idx)

/-- Modelled from the spec: `hash::HashIndex::update_reserved` is not
under `src/`.  Spec 4.1: records a `persistent_ref` against a Reserved
entry, keeping state = Reserved. -/
def update_reserved (idx : HashIdx) (e : HashEntry) : HashIdx :=
  idx.map fun p =>
    if p.1 = e.hash then
      match p.2 with
      | .reserved _ => (p.1, .reserved e)
      | .committed r => (p.1, .committed r)
    else p

/-- Modelled from the spec: `hash::HashIndex::commit` is not under
`src/`.  Spec 4.1: transitions the entry to Committed. -/
def commit (idx : HashIdx) (h : Hash) (r : ChunkRef) : HashIdx :=
  idx.map fun p => if p.1 = h then (p.1, .committed r) else p

/-- One `blob_store.store` call as recorded by the blob store: the chunk
handed over, its kind, the hash that the registered commit callback will
commit (the code's closure is `move |chunk_ref| commit(local_hash,
chunk_ref)`, so it is fully determined by the captured hash), and the
ChunkRef returned to the caller. -/
structure StoreRecord where
  chunk : Bytes
  kind : Kind
  cbHash : Hash
  ref : ChunkRef
deriving DecidableEq, Repr

/-- Modelled from the spec: the blob store's buffer state (`blob::BlobStore`
is not under `src/`).  Spec 4.2: a single open blob with a name and a
running offset; `stores` is the cumulative log of `store` calls (chunks
handed to the blob store), which is what the claims observe. -/
structure BlobStoreState where
  blob_name : Bytes
  offset : Nat
  stores : List StoreRecord
deriving DecidableEq, Repr

/-- Modelled from the spec: `blob::BlobStore::store` is not under `src/`.
Spec 4.2: return immediately the ChunkRef the chunk will occupy (open
blob name, running offset, chunk length, kind), append the bytes and
record the `(offset, length, kind, callback)` tuple.  Flushing only
changes which blob later chunks land in; none of the claims observes
blob boundaries, so it is not modelled. -/
def blobStoreStore (b : BlobStoreState) (chunk : Bytes) (kind : Kind)
    (cbHash : Hash) : ChunkRef × BlobStoreState :=
  let r : ChunkRef :=
    { blob_name := b.blob_name, offset := b.offset, length := chunk.length,
      kind := kind }
  (r,
   { blob_name := b.blob_name, offset := b.offset + chunk.length,
     stores := b.stores ++ [{ chunk := chunk, kind := kind, cbHash := cbHash,
                              ref := r }] })

/-- Combined state of the two services the backend holds. -/
structure Store where
  index : HashIdx
  blob : BlobStoreState
deriving DecidableEq, Repr

/-- Observable side-effect events of one `insert_chunk` call, in order:
a `blob_store.store` call (with the hash its callback will commit) and a
`hash_index.update_reserved` call. -/
inductive Ev where
  | storeEv (chunk : Bytes) (kind : Kind) (cbHash : Hash) : Ev
  | updateReservedEv (e : HashEntry) : Ev
deriving DecidableEq, Repr

/-- `HashStoreBackend::insert_chunk`
(src/key/hash_store_backend.rs lines 109-149): assert non-empty hash;
build the Reserved entry; `reserve`.  On `HashKnown`, loop on
`fetch_persistent_ref` (the `ans` stream) and `.expect` the result.  On
`ReserveOk`, pick the kind from the level, `store` the chunk with a
callback committing the hash, record the returned ref via
`update_reserved`, and return it.  The result is the returned value, the
new state, and the ordered event list of the call. -/
def insert_chunk (st : Store) (ans : List IndexAnswer) (h : Hash) (level : Int)
    (payload : Option Bytes) (chunk : Bytes) :
    RunResult ChunkRef × Store × List Ev :=
  if h.bytes = [] then (.panicked .emptyHash, st, [])
  else
    let entry : HashEntry :=
      { hash := h, level := level, payload := payload, persistent_ref := none }
    match reserve st.index entry with
    | (.hashKnown, _) =>
      match fetchRefLoop ans with
      | some (some r) => (.ok r, st, [])
      | some none => (.panicked .missingRef, st, [])
      | none => (.diverged, st, [])
    | (.reserveOk, idx1) =>
      let kind := if level = 0 then Kind.treeLeaf else Kind.treeBranch
      let pr := blobStoreStore st.blob chunk kind h
      let entry2 : HashEntry :=
        { hash := h, level := level, payload := payload,
          persistent_ref := some pr.1 }
      let idx2 := update_reserved idx1 entry2
      (.ok pr.1, { index := idx2, blob := pr.2 },
       [.storeEv chunk kind h, .updateReservedEv entry2])

/-- Arguments of one `insert_chunk` call in a trace. -/
structure InsertCall where
  hash : Hash
  level : Int
  payload : Option Bytes
  chunk : Bytes
deriving DecidableEq, Repr

/-- The store/index state effect of a sequence of `insert_chunk` calls
(the answer stream only influences the returned value of the
`HashKnown` branch, never the state, so it is irrelevant here). -/
def runInserts (calls : List InsertCall) (st : Store) : Store :=
  calls.foldl (fun s c => (insert_chunk s [] c.hash c.level c.payload c.chunk).2.1) st

/-- The initial state: empty hash index, empty open blob. -/
def initStore : Store :=
  { index := [], blob := { blob_name := [], offset := 0, stores := [] } }

/-- The hashes of a call sequence that are new with respect to a set of
already-known hashes: the first occurrence of each distinct hash. -/
def newHashes : List InsertCall → List Hash → List Hash
  | [], _ => []
  | c :: cs, known =>
    if c.hash ∈ known then newHashes cs known
    else c.hash :: newHashes cs (c.hash :: known)

/-- The index answer that ends the retry loop with value `v`. -/
def answerOf : Option ChunkRef → IndexAnswer
  | some r => .found r
  | none => .missing

theorem answerOf_ne_retry (v : Option ChunkRef) : answerOf v ≠ .retry := by
  cases v <;> simp [answerOf]

theorem fetchRefLoop_spec (v : Option ChunkRef) :
    ∀ ans : List IndexAnswer,
      fetchRefLoop ans = some v ↔
        ∃ k, (∀ j, j < k → ans.get? j = some .retry) ∧
          ans.get? k = some (answerOf v)
  | [] => by simp [fetchRefLoop]
  | .found r :: rest => by
    simp only [fetchRefLoop]
    constructor
    · intro hE
      refine ⟨0, fun j hj => absurd hj (Nat.not_lt_zero j), ?_⟩
      cases v with
      | some r' => simp_all [answerOf]
      | none => simp_all
    · rintro ⟨k, hall, hk⟩
      cases k with
      | zero =>
        cases v with
        | some r' => simp_all [answerOf]
        | none => simp [answerOf] at hk
      | succ k =>
        have h0 := hall 0 (Nat.succ_pos k)
        simp at h0
  | .missing :: rest => by
    simp only [fetchRefLoop]
    constructor
    · intro hE
      refine ⟨0, fun j hj => absurd hj (Nat.not_lt_zero j), ?_⟩
      cases v with
      | some r' => simp_all
      | none => simp [answerOf]
    · rintro ⟨k, hall, hk⟩
      cases k with
      | zero =>
        cases v with
        | some r' => simp [answerOf] at hk
        | none => simp_all [answerOf]
      | succ k =>
        have h0 := hall 0 (Nat.succ_pos k)
        simp at h0
  | .retry :: rest => by
    simp only [fetchRefLoop]
    rw [fetchRefLoop_spec v rest]
    constructor
    · rintro ⟨k, hall, hk⟩
      refine ⟨k + 1, fun j hj => ?_, by simpa using hk⟩
      cases j with
      | zero => rfl
      | succ j => simpa using hall j (by omega)
    · rintro ⟨k, hall, hk⟩
      cases k with
      | zero =>
        exact absurd (by simpa using hk.symm) (answerOf_ne_retry v)
      | succ k =>
        exact ⟨k, fun j hj => by simpa using hall (j + 1) (by omega),
               by simpa using hk⟩

theorem fetch_persistent_ref_ok_iff (h : Hash) (ans : List IndexAnswer)
    (hne : h.bytes ≠ []) (v : Option ChunkRef) :
    fetch_persistent_ref h ans = .ok v ↔ fetchRefLoop ans = some v := by
  unfold fetch_persistent_ref
  rw [if_neg hne]
  cases hE : fetchRefLoop ans <;> simp_all

theorem keysOf_update_reserved (idx : HashIdx) (e : HashEntry) :
    keysOf (update_reserved idx e) = keysOf idx := by
  unfold keysOf update_reserved
  rw [List.map_map]
  apply List.map_congr_left
  intro p _
  rcases p with ⟨ph, pe⟩
  by_cases hEq : ph = e.hash <;> rcases pe with e' | r <;>
    simp [Function.comp, hEq]

theorem reserve_fst_hashKnown_iff (idx : HashIdx) (e : HashEntry) :
    (reserve idx e).1 = .hashKnown ↔ e.hash ∈ keysOf idx := by
  unfold reserve
  by_cases hMem : e.hash ∈ keysOf idx <;> simp [hMem]

theorem reserve_fst_reserveOk_iff (idx : HashIdx) (e : HashEntry) :
    (reserve idx e).1 = .reserveOk ↔ e.hash ∉ keysOf idx := by
  unfold reserve
  by_cases hMem : e.hash ∈ keysOf idx <;> simp [hMem]

theorem insert_chunk_hashKnown (st : Store) (ans : List IndexAnswer) (h : Hash)
    (level : Int) (payload : Option Bytes) (chunk : Bytes)
    (hne : h.bytes ≠ []) (hmem : h ∈ keysOf st.index) :
    insert_chunk st ans h level payload chunk =
      ((match fetchRefLoop ans with
        | some (some r) => .ok r
        | some none => .panicked .missingRef
        | none => .diverged), st, []) := by
  unfold insert_chunk
  rw [if_neg hne]
  have hRes : reserve st.index
      { hash := h, level := level, payload := payload,
        persistent_ref := none } = (.hashKnown, st.index) := by
    unfold reserve
    simp [hmem]
  simp only [hRes]
  rcases hE : fetchRefLoop ans with _ | v
  · simp
  · rcases v <;> simp

theorem insert_chunk_reserveOk (st : Store) (ans : List IndexAnswer) (h : Hash)
    (level : Int) (payload : Option Bytes) (chunk : Bytes)
    (hne : h.bytes ≠ []) (hmem : h ∉ keysOf st.index) :
    insert_chunk st ans h level payload chunk =
      (.ok (blobStoreStore st.blob chunk
              (if level = 0 then .treeLeaf else .treeBranch) h).1,
       { index := update_reserved
           ((h, .reserved ⟨h, level, payload, none⟩) :: st.index)
           ⟨h, level, payload,
            some (blobStoreStore st.blob chunk
                    (if level = 0 then .treeLeaf else .treeBranch) h).1⟩,
         blob := (blobStoreStore st.blob chunk
                    (if level = 0 then .treeLeaf else .treeBranch) h).2 },
       [.storeEv chunk (if level = 0 then .treeLeaf else .treeBranch) h,
        .updateReservedEv
          ⟨h, level, payload,
           some (blobStoreStore st.blob chunk
                   (if level = 0 then .treeLeaf else .treeBranch) h).1⟩]) := by
  unfold insert_chunk
  rw [if_neg hne]
  have hRes : reserve st.index
      { hash := h, level := level, payload := payload,
        persistent_ref := none } =
      (.reserveOk,
       (h, .reserved { hash := h, level := level, payload := payload,
                       persistent_ref := none }) :: st.index) := by
    unfold reserve
    simp [hmem]
  simp only [hRes]

theorem newHashes_nodup_disjoint :
    ∀ (cs : List InsertCall) (known : List Hash),
      (newHashes cs known).Nodup ∧ ∀ h ∈ newHashes cs known, h ∉ known
  | [], known => by simp [newHashes]
  | c :: cs, known => by
    by_cases hMem : c.hash ∈ known
    · simpa [newHashes, hMem] using newHashes_nodup_disjoint cs known
    · have ih := newHashes_nodup_disjoint cs (c.hash :: known)
      simp only [newHashes, hMem, if_false]
      constructor
      · refine List.nodup_cons.2 ⟨fun hIn => ?_, ih.1⟩
        have := ih.2 c.hash hIn
        simp at this
      · intro h hIn
        rcases List.mem_cons.1 hIn with hEq | hTl
        · simpa [hEq] using hMem
        · have := ih.2 h hTl
          intro hK
          exact this (List.mem_cons_of_mem _ hK)

theorem mem_newHashes :
    ∀ (cs : List InsertCall) (known : List Hash) (h : Hash),
      h ∈ newHashes cs known ↔ (h ∈ cs.map InsertCall.hash ∧ h ∉ known)
  | [], known, h => by simp [newHashes]
  | c :: cs, known, h => by
    by_cases hMem : c.hash ∈ known
    · rw [newHashes, if_pos hMem, mem_newHashes cs known h]
      by_cases hC : h = c.hash
      · subst hC
        simp [hMem]
      · simp [hC]
    · rw [newHashes, if_neg hMem]
      simp only [List.mem_cons, mem_newHashes cs (c.hash :: known) h,
        List.map_cons]
      by_cases hC : h = c.hash
      · subst hC
        simp [hMem]
      · simp [hC]

theorem runInserts_stores :
    ∀ (calls : List InsertCall) (st : Store),
      (∀ c ∈ calls, c.hash.bytes ≠ []) →
      ((runInserts calls st).blob.stores.map StoreRecord.cbHash =
        st.blob.stores.map StoreRecord.cbHash ++
          newHashes calls (keysOf st.index)) ∧
      keysOf (runInserts calls st).index =
        (newHashes calls (keysOf st.index)).reverse ++ keysOf st.index
  | [], st => by simp [runInserts, newHashes]
  | c :: cs, st => by
    intro hAll
    have hne : c.hash.bytes ≠ [] := hAll c (List.mem_cons_self c cs)
    have hTl : ∀ d ∈ cs, d.hash.bytes ≠ [] :=
      fun d hd => hAll d (List.mem_cons_of_mem c hd)
    have hStep : runInserts (c :: cs) st =
        runInserts cs
          (insert_chunk st [] c.hash c.level c.payload c.chunk).2.1 := by
      simp [runInserts]
    by_cases hMem : c.hash ∈ keysOf st.index
    · rw [hStep, insert_chunk_hashKnown st [] c.hash c.level c.payload c.chunk
          hne hMem]
      simpa [newHashes, hMem] using runInserts_stores cs st hTl
    · rw [hStep, insert_chunk_reserveOk st [] c.hash c.level c.payload c.chunk
          hne hMem]
      have ih := runInserts_stores cs
        { index := update_reserved
            ((c.hash, .reserved ⟨c.hash, c.level, c.payload, none⟩) :: st.index)
            ⟨c.hash, c.level, c.payload,
             some (blobStoreStore st.blob c.chunk
                     (if c.level = 0 then .treeLeaf else .treeBranch) c.hash).1⟩,
          blob := (blobStoreStore st.blob c.chunk
                     (if c.level = 0 then .treeLeaf else .treeBranch) c.hash).2 }
        hTl
      have hKeys : keysOf (update_reserved
          ((c.hash, .reserved ⟨c.hash, c.level, c.payload, none⟩) :: st.index)
          ⟨c.hash, c.level, c.payload,
           some (blobStoreStore st.blob c.chunk
                   (if c.level = 0 then .treeLeaf else .treeBranch) c.hash).1⟩) =
          c.hash :: keysOf st.index := by
        rw [keysOf_update_reserved]
        simp [keysOf]
      rw [hKeys] at ih
      rcases ih with ⟨ihS, ihK⟩
      constructor
      · rw [ihS]
        simp [blobStoreStore, newHashes, hMem]
      · rw [ihK]
        simp [newHashes, hMem]

end HSB

/-- Claim C1: when `reserve` answers `HashKnown`, `insert_chunk` leaves
the state untouched (in particular it performs no `blob_store.store`
call: its event list is empty), and returns exactly the ref obtained by
looping on `fetch_persistent_ref` until a `Some` arrives; consequently,
over any sequence of `insert_chunk` calls started from the empty state,
the hashes of the chunks handed to the blob store are pairwise distinct
and are exactly the distinct input hashes. -/
theorem c1_insert_chunk_dedup :
    (∀ (st : HSB.Store) (ans : List HSB.IndexAnswer) (h : Hash) (level : Int)
       (payload : Option Bytes) (chunk : Bytes),
      h.bytes ≠ [] →
      (HSB.reserve st.index ⟨h, level, payload, none⟩).1 = .hashKnown →
      (HSB.insert_chunk st ans h level payload chunk).2.1 = st ∧
      (HSB.insert_chunk st ans h level payload chunk).2.2 = [] ∧
      (∀ r, (HSB.insert_chunk st ans h level payload chunk).1 = .ok r ↔
        HSB.fetchRefLoop ans = some (some r))) ∧
    (∀ calls : List HSB.InsertCall, (∀ c ∈ calls, c.hash.bytes ≠ []) →
      ((HSB.runInserts calls HSB.initStore).blob.stores.map
          HSB.StoreRecord.cbHash).Nodup ∧
      (∀ h, h ∈ (HSB.runInserts calls HSB.initStore).blob.stores.map
          HSB.StoreRecord.cbHash ↔ h ∈ calls.map HSB.InsertCall.hash)) := by
  constructor
  · intro st ans h level payload chunk hne hkn
    have hmem : h ∈ HSB.keysOf st.index := by
      have := (HSB.reserve_fst_hashKnown_iff st.index
        ⟨h, level, payload, none⟩).1 hkn
      simpa using this
    rw [HSB.insert_chunk_hashKnown st ans h level payload chunk hne hmem]
    refine ⟨rfl, rfl, fun r => ?_⟩
    rcases hE : HSB.fetchRefLoop ans with _ | v
    · simp
    · rcases v <;> simp
  · intro calls hAll
    have hRun := HSB.runInserts_stores calls HSB.initStore hAll
    have hInit : (HSB.runInserts calls HSB.initStore).blob.stores.map
        HSB.StoreRecord.cbHash = HSB.newHashes calls [] := by
      simpa [HSB.initStore, HSB.keysOf] using hRun.1
    rw [hInit]
    refine ⟨(HSB.newHashes_nodup_disjoint calls []).1, fun h => ?_⟩
    rw [HSB.mem_newHashes]
    simp

/-- Witness for C1: twice inserting the same one-byte chunk from the
empty state stores it once; and a call on a known hash with a ready
index answer leaves the state unchanged. -/
theorem c1_witness :
    ((∀ c ∈ [HSB.InsertCall.mk (Hash.mk [1]) 0 none [5],
             HSB.InsertCall.mk (Hash.mk [1]) 0 none [5]], c.hash.bytes ≠ []) ∧
     (((HSB.runInserts [HSB.InsertCall.mk (Hash.mk [1]) 0 none [5],
          HSB.InsertCall.mk (Hash.mk [1]) 0 none [5]]
          HSB.initStore).blob.stores.map HSB.StoreRecord.cbHash).Nodup ∧
      (∀ h, h ∈ (HSB.runInserts [HSB.InsertCall.mk (Hash.mk [1]) 0 none [5],
          HSB.InsertCall.mk (Hash.mk [1]) 0 none [5]]
          HSB.initStore).blob.stores.map HSB.StoreRecord.cbHash ↔
        h ∈ [HSB.InsertCall.mk (Hash.mk [1]) 0 none [5],
             HSB.InsertCall.mk (Hash.mk [1]) 0 none [5]].map
              HSB.InsertCall.hash))) :=
  ⟨by decide,
   c1_insert_chunk_dedup.2
     [HSB.InsertCall.mk (Hash.mk [1]) 0 none [5],
      HSB.InsertCall.mk (Hash.mk [1]) 0 none [5]] (by decide)⟩

/-- Claim C2: when `reserve` answers `ReserveOk`, `insert_chunk` emits,
in order, a `blob_store.store` of the chunk — with kind `TreeLeaf`
exactly when `level = 0` and `TreeBranch` otherwise, and with a commit
callback for exactly this hash — followed by a `hash_index.update_reserved`
carrying the ChunkRef that `store` returned; and it returns that same
ChunkRef. -/
theorem c2_insert_chunk_store_protocol
    (st : HSB.Store) (ans : List HSB.IndexAnswer) (h : Hash) (level : Int)
    (payload : Option Bytes) (chunk : Bytes)
    (hne : h.bytes ≠ [])
    (hok : (HSB.reserve st.index ⟨h, level, payload, none⟩).1 = .reserveOk) :
    ∃ r : ChunkRef,
      r = (HSB.blobStoreStore st.blob chunk
            (if level = 0 then .treeLeaf else .treeBranch) h).1 ∧
      (HSB.insert_chunk st ans h level payload chunk).1 = .ok r ∧
      (HSB.insert_chunk st ans h level payload chunk).2.2 =
        [.storeEv chunk (if level = 0 then .treeLeaf else .treeBranch) h,
         .updateReservedEv ⟨h, level, payload, some r⟩] ∧
      (HSB.insert_chunk st ans h level payload chunk).2.1.blob.stores =
        st.blob.stores ++
          [⟨chunk, (if level = 0 then .treeLeaf else .treeBranch), h, r⟩] ∧
      (HSB.insert_chunk st ans h level payload chunk).2.1.index =
        HSB.update_reserved
          ((h, .reserved ⟨h, level, payload, none⟩) :: st.index)
          ⟨h, level, payload, some r⟩ := by
  have hmem : h ∉ HSB.keysOf st.index := by
    have := (HSB.reserve_fst_reserveOk_iff st.index
      ⟨h, level, payload, none⟩).1 hok
    simpa using this
  rw [HSB.insert_chunk_reserveOk st ans h level payload chunk hne hmem]
  exact ⟨_, rfl, rfl, rfl, by simp [HSB.blobStoreStore], rfl⟩

/-- Witness for C2: a fresh single-byte chunk at level 1 is stored as a
`TreeBranch` with its callback hash, then registered via
`update_reserved` with the returned ref. -/
theorem c2_witness :
    ((Hash.mk [2]).bytes ≠ [] ∧
     (HSB.reserve HSB.initStore.index ⟨Hash.mk [2], 1, none, none⟩).1 =
       .reserveOk) ∧
    (∃ r : ChunkRef,
      r = (HSB.blobStoreStore HSB.initStore.blob [7]
            (if (1 : Int) = 0 then .treeLeaf else .treeBranch) (Hash.mk [2])).1 ∧
      (HSB.insert_chunk HSB.initStore [] (Hash.mk [2]) 1 none [7]).1 = .ok r ∧
      (HSB.insert_chunk HSB.initStore [] (Hash.mk [2]) 1 none [7]).2.2 =
        [.storeEv [7] (if (1 : Int) = 0 then .treeLeaf else .treeBranch)
           (Hash.mk [2]),
         .updateReservedEv ⟨Hash.mk [2], 1, none, some r⟩] ∧
      (HSB.insert_chunk HSB.initStore [] (Hash.mk [2]) 1 none [7]).2.1.blob.stores =
        HSB.initStore.blob.stores ++
          [⟨[7], (if (1 : Int) = 0 then .treeLeaf else .treeBranch),
            Hash.mk [2], r⟩] ∧
      (HSB.insert_chunk HSB.initStore [] (Hash.mk [2]) 1 none [7]).2.1.index =
        HSB.update_reserved
          ((Hash.mk [2], .reserved ⟨Hash.mk [2], 1, none, none⟩) ::
            HSB.initStore.index)
          ⟨Hash.mk [2], 1, none, some r⟩) :=
  ⟨⟨by decide, by decide⟩,
   c2_insert_chunk_store_protocol HSB.initStore [] (Hash.mk [2]) 1 none [7]
     (by decide) (by decide)⟩

/-- Claim C4: the hash-store backend's `fetch_persistent_ref` never
surfaces a `Retry` answer from the hash index (in particular it never
returns the error that `Retry` is transported as): it loops, and its
result is `Some r` exactly when the index eventually answers
`Ok(Some r)` after finitely many `Retry`s, and `None` exactly when the
index eventually answers `Ok(None)`. -/
theorem c4_fetch_persistent_ref_absorbs_retry (h : Hash)
    (ans : List HSB.IndexAnswer) (hne : h.bytes ≠ []) :
    (∀ e, HSB.fetch_persistent_ref h ans ≠ .err e) ∧
    (∀ v, HSB.fetch_persistent_ref h ans = .ok v ↔
      ∃ k, (∀ j, j < k → ans.get? j = some .retry) ∧
        ans.get? k = some (HSB.answerOf v)) := by
  constructor
  · intro e
    unfold HSB.fetch_persistent_ref
    rw [if_neg hne]
    cases HSB.fetchRefLoop ans <;> simp
  · intro v
    rw [HSB.fetch_persistent_ref_ok_iff h ans hne v, HSB.fetchRefLoop_spec]

/-- Witness for C4 at a concrete input: a two-`Retry` prefix followed by
a committed ref is absorbed. -/
theorem c4_witness :
    (Hash.mk [1]).bytes ≠ [] ∧
    ((∀ e, HSB.fetch_persistent_ref (Hash.mk [1])
        [.retry, .retry, .found (ChunkRef.mk [] 0 0 .treeLeaf)] ≠ .err e) ∧
     (∀ v, HSB.fetch_persistent_ref (Hash.mk [1])
        [.retry, .retry, .found (ChunkRef.mk [] 0 0 .treeLeaf)] = .ok v ↔
      ∃ k, (∀ j, j < k →
          [HSB.IndexAnswer.retry, .retry,
           .found (ChunkRef.mk [] 0 0 .treeLeaf)].get? j = some .retry) ∧
        [HSB.IndexAnswer.retry, .retry,
         .found (ChunkRef.mk [] 0 0 .treeLeaf)].get? k = some (HSB.answerOf v))) :=
  ⟨by decide,
   c4_fetch_persistent_ref_absorbs_retry (Hash.mk [1])
     [.retry, .retry, .found (ChunkRef.mk [] 0 0 .treeLeaf)] (by decide)⟩

/-- Claim C8: every hash-store backend operation (`fetch_chunk`,
`fetch_persistent_ref`, `insert_chunk`, and the internal
`fetch_chunk_from_hash`) asserts a non-empty hash at its head: the call
panics on that assertion exactly when the argument hash has zero
length. -/
theorem c8_nonempty_hash_assertions :
    (∀ (env : HSB.FetchEnv) (h : Hash) (pr : Option ChunkRef),
      HSB.fetch_chunk env h pr = .panicked .emptyHash ↔ h.bytes = []) ∧
    (∀ (env : HSB.FetchEnv) (h : Hash),
      HSB.fetch_chunk_from_hash env h = .panicked .emptyHash ↔ h.bytes = []) ∧
    (∀ (h : Hash) (ans : List HSB.IndexAnswer),
      HSB.fetch_persistent_ref h ans = .panicked .emptyHash ↔ h.bytes = []) ∧
    (∀ (st : HSB.Store) (ans : List HSB.IndexAnswer) (h : Hash) (level : Int)
       (payload : Option Bytes) (chunk : Bytes),
      (HSB.insert_chunk st ans h level payload chunk).1 = .panicked .emptyHash ↔
        h.bytes = []) := by
  refine ⟨?_, ?_, ?_, ?_⟩
  · intro env h pr
    unfold HSB.fetch_chunk
    by_cases hb : h.bytes = []
    · simp [hb]
    · rw [if_neg hb]
      constructor
      · intro hres
        exfalso
        rcases pr with _ | r
        · unfold HSB.fetch_chunk_from_hash at hres
          rw [if_neg hb] at hres
          rcases hA : env.indexAnswer with r' | _ | _
          · simp only [hA, HSB.fetch_chunk_from_persistent_ref] at hres
            rcases hR : env.retrieve r' with e | d <;> rw [hR] at hres
            · simp at hres
            · rcases d with _ | b <;> simp at hres
              by_cases hEq : h = env.hashFn b <;> simp [hEq] at hres
          · simp [hA] at hres
          · simp [hA] at hres
        · simp only [HSB.fetch_chunk_from_persistent_ref] at hres
          rcases hR : env.retrieve r with e | d <;> rw [hR] at hres
          · simp at hres
          · rcases d with _ | b <;> simp at hres
            by_cases hEq : h = env.hashFn b <;> simp [hEq] at hres
      · intro hres
        exact absurd hres hb
  · intro env h
    unfold HSB.fetch_chunk_from_hash
    by_cases hb : h.bytes = []
    · simp [hb]
    · rw [if_neg hb]
      constructor
      · intro hres
        exfalso
        rcases hA : env.indexAnswer with r' | _ | _ <;>
          simp [hA, HSB.fetch_chunk_from_persistent_ref] at hres
        rcases hR : env.retrieve r' with d | e <;> simp [hR] at hres
      · intro hres
        exact absurd hres hb
  · intro h ans
    unfold HSB.fetch_persistent_ref
    by_cases hb : h.bytes = []
    · simp [hb]
    · rw [if_neg hb]
      constructor
      · intro hres
        rcases hE : HSB.fetchRefLoop ans with _ | v <;> rw [hE] at hres <;>
          simp at hres
      · intro hres
        exact absurd hres hb
  · intro st ans h level payload chunk
    unfold HSB.insert_chunk
    by_cases hb : h.bytes = []
    · simp [hb]
    · rw [if_neg hb]
      constructor
      · intro hres
        exfalso
        rcases hRes : HSB.reserve st.index
            { hash := h, level := level, payload := payload,
              persistent_ref := none } with ⟨rr, idx1⟩
        rcases rr <;> simp [hRes] at hres
        rcases hL : HSB.fetchRefLoop ans with _ | v <;> simp [hL] at hres
        rcases v <;> simp at hres
      · intro hres
        exact absurd hres hb

/-- Witness for C8: the iffs are hypothesis-free; this instantiates the
`fetch_persistent_ref` conjunct on an empty and a one-byte hash. -/
theorem c8_witness :
    (HSB.fetch_persistent_ref (Hash.mk []) [] = .panicked .emptyHash ↔
      (Hash.mk []).bytes = []) ∧
    (HSB.fetch_persistent_ref (Hash.mk [7]) [.missing] = .panicked .emptyHash ↔
      (Hash.mk [7]).bytes = []) :=
  ⟨c8_nonempty_hash_assertions.2.2.1 (Hash.mk []) [],
   c8_nonempty_hash_assertions.2.2.1 (Hash.mk [7]) [.missing]⟩

/-- Claim C3: `fetch_chunk` self-verifies: an `Ok(Some(bytes))` result
always hashes to the requested hash; when the resolved retrieval yields
bytes with a different hash the call returns `Ok(None)` (not an error),
and a missing chunk also yields `Ok(None)`. -/
theorem c3_fetch_chunk_self_verification (env : HSB.FetchEnv) (h : Hash) :
    (∀ pr b, HSB.fetch_chunk env h pr = .ok (some b) → env.hashFn b = h) ∧
    (∀ r d, h.bytes ≠ [] → env.retrieve r = .ok (some d) → env.hashFn d ≠ h →
      HSB.fetch_chunk env h (some r) = .ok none) ∧
    (∀ r, h.bytes ≠ [] → env.retrieve r = .ok none →
      HSB.fetch_chunk env h (some r) = .ok none) ∧
    (∀ r d, h.bytes ≠ [] → env.indexAnswer = .found r →
      env.retrieve r = .ok (some d) → env.hashFn d ≠ h →
      HSB.fetch_chunk env h none = .ok none) ∧
    (h.bytes ≠ [] → env.indexAnswer = .missing →
      HSB.fetch_chunk env h none = .ok none) := by
  refine ⟨?_, ?_, ?_, ?_, ?_⟩
  · intro pr b hres
    unfold HSB.fetch_chunk at hres
    by_cases hb : h.bytes = []
    · simp [hb] at hres
    · rw [if_neg hb] at hres
      rcases hD : (match pr with
        | some r => HSB.fetch_chunk_from_persistent_ref env r
        | none => HSB.fetch_chunk_from_hash env h) with d | e | p | _ <;>
        rw [hD] at hres <;> try simp at hres
      rcases d with _ | b' <;> simp at hres
      · by_cases hEq : h = env.hashFn b' <;> simp [hEq] at hres
        · cases hres
          exact hEq.symm
  · intro r d hb hR hNe
    unfold HSB.fetch_chunk
    rw [if_neg hb]
    simp only [HSB.fetch_chunk_from_persistent_ref, hR]
    have : h ≠ env.hashFn d := fun hEq => hNe (hEq.symm)
    simp [this]
  · intro r hb hR
    unfold HSB.fetch_chunk
    rw [if_neg hb]
    simp [HSB.fetch_chunk_from_persistent_ref, hR]
  · intro r d hb hA hR hNe
    unfold HSB.fetch_chunk HSB.fetch_chunk_from_hash
    rw [if_neg hb, if_neg hb]
    simp only [hA, HSB.fetch_chunk_from_persistent_ref, hR]
    have : h ≠ env.hashFn d := fun hEq => hNe (hEq.symm)
    simp [this]
  · intro hb hA
    unfold HSB.fetch_chunk HSB.fetch_chunk_from_hash
    rw [if_neg hb, if_neg hb]
    simp [hA]

/-- Witness for C3 at a concrete environment: the identity-like hash
function marks byte `9`; retrieving ref `r0` yields `[9]`, whose hash
differs from the requested `[1]`, so the fetch returns `Ok(None)`. -/
theorem c3_witness :
    ((Hash.mk [1]).bytes ≠ [] ∧
     HSB.FetchEnv.retrieve
       { indexAnswer := .missing,
         retrieve := fun _ => .ok (some [9]),
         hashFn := fun b => Hash.mk b } (ChunkRef.mk [] 0 0 .treeLeaf) =
       .ok (some [9]) ∧
     HSB.FetchEnv.hashFn
       { indexAnswer := .missing,
         retrieve := fun _ => .ok (some [9]),
         hashFn := fun b => Hash.mk b } [9] ≠ Hash.mk [1]) ∧
    HSB.fetch_chunk
      { indexAnswer := .missing,
        retrieve := fun _ => .ok (some [9]),
        hashFn := fun b => Hash.mk b } (Hash.mk [1])
      (some (ChunkRef.mk [] 0 0 .treeLeaf)) = .ok none :=
  ⟨⟨by decide, rfl, by decide⟩,
   (c3_fetch_chunk_self_verification
      { indexAnswer := .missing,
        retrieve := fun _ => .ok (some [9]),
        hashFn := fun b => Hash.mk b } (Hash.mk [1])).2.1
     (ChunkRef.mk [] 0 0 .treeLeaf) [9] (by decide) rfl (by decide)⟩

namespace KeyIdx

/-- The value of a Rust `x as i64` cast applied to a `u64`, on `Nat`. -/
def toI64 (n : Nat) : Int :=
  let m : Nat := n % 2 ^ 64
  if m < 2 ^ 63 then (m : Int) else (m : Int) - 2 ^ 64

/-- The value of a Rust `x as u64` cast applied to an `i64`, on `Int`. -/
def toU64 (x : Int) : Nat :=
  (x % 2 ^ 64).toNat

/-- One row of the SQLite `keys` table (`key::schema::Key`): SQLite
integer columns are `i64`, `parent`, timestamps, ownership, `hash` and
`persistent_ref` are nullable. -/
structure KeyRow where
  id : Int
  parent : Option Int
  name : Bytes
  created : Option Int
  modified : Option Int
  accessed : Option Int
  permissions : Option Int
  user_id : Option Int
  group_id : Option Int
  hash : Option Bytes
  persistent_ref : Option Bytes
deriving DecidableEq, Repr

/-- `key::Entry` (src/key/index.rs lines 31-48). -/
structure Entry where
  id : Option Nat
  parent_id : Option Nat
  name : Bytes
  created : Option Int
  modified : Option Int
  accessed : Option Int
  permissions : Option Nat
  user_id : Option Nat
  group_id : Option Nat
  data_hash : Option Bytes
  data_length : Option Nat
deriving DecidableEq, Repr

/-- `InternalKeyIndex::insert` (src/key/index.rs lines 99-141).  With
`entry.id = Some(id)` it updates only the `parent`, `name`, `created`,
`modified` and `accessed` columns of the row found by primary key and
returns the entry unchanged; with `entry.id = None` it inserts a fresh
row (with `hash = None`, `persistent_ref = None`) and returns the entry
with the new rowid (SQLite rowid allocation is modelled as one more
than the largest existing id). -/
def insert (table : List KeyRow) (entry : Entry) : List KeyRow × Entry :=
  match entry.id with
  | some id_ =>
    (table.map fun r =>
      if r.id = toI64 id_ then
        { r with parent := entry.parent_id.map toI64,
                 name := entry.name,
                 created := entry.created,
                 modified := entry.modified,
                 accessed := entry.accessed }
      else r,
     entry)
  | none =>
    let newId : Int := (table.map KeyRow.id).foldr max 0 + 1
    let newRow : KeyRow :=
      { id := newId,
        parent := entry.parent_id.map toI64,
        name := entry.name,
        created := entry.created,
        modified := entry.modified,
        accessed := entry.accessed,
        permissions := entry.permissions.map toI64,
        user_id := entry.user_id.map toI64,
        group_id := entry.group_id.map toI64,
        hash := none,
        persistent_ref := none }
    (table ++ [newRow], { entry with id := some (toU64 newId) })

/-- 8-byte little-endian encoding of a `u64`. -/
def u64le (n : Nat) : Bytes :=
  (List.range 8).map fun i => n / 256 ^ i % 256

/-- Value of a little-endian byte string. -/
def leVal (bs : Bytes) : Nat :=
  bs.reverse.foldl (fun acc b => acc * 256 + b) 0

/-- Byte encoding of `blob::Kind`. -/
def kindByte : Kind → Nat
  | .treeLeaf => 0
  | .treeBranch => 1

/-- Modelled from the spec: `blob::ChunkRef::as_bytes` is not under
`src/`.  Spec 6: a canonical length-prefixed tuple
`(blob_name, offset: u64, length: u64, kind: u8)`. -/
def chunkRefToBytes (r : ChunkRef) : Bytes :=
  u64le r.blob_name.length ++ r.blob_name ++ u64le r.offset ++
    u64le r.length ++ [kindByte r.kind]

/-- Modelled from the spec: `blob::ChunkRef::from_bytes` is not under
`src/`.  Parses the canonical form back; `none` on any malformed
input (wrong framing length or invalid kind byte). -/
def chunkRefFromBytes (bs : Bytes) : Option ChunkRef :=
  let nameLen := leVal (bs.take 8)
  if bs.length = 8 + nameLen + 17 then
    let rest := bs.drop 8
    let nm := rest.take nameLen
    let rest2 := rest.drop nameLen
    let off := leVal (rest2.take 8)
    let len := leVal ((rest2.drop 8).take 8)
    match rest2.drop 16 with
    | [0] => some { blob_name := nm, offset := off, length := len,
                    kind := .treeLeaf }
    | [1] => some { blob_name := nm, offset := off, length := len,
                    kind := .treeBranch }
    | _ => none
  else none

/-- The effective row predicate of the diesel filter
`modified.eq::<Option<i64>>(None).or(modified.le(last_modified))` in
`update_data_hash`.  Under the pre-1.0 diesel this code uses, `.eq(None)`
binds NULL as a parameter and generates `modified = NULL`, which SQLite
three-valued logic never satisfies; a NULL `modified` also makes
`modified <= t` evaluate to NULL.  The filter therefore accepts exactly
the rows whose stored `modified` is non-NULL and at most `t`; rows with
a NULL `modified` are never accepted. -/
def modifiedLe (mo : Option Int) (t : Int) : Bool :=
  match mo with
  | none => false
  | some m => decide (m ≤ t)

/-- `InternalKeyIndex::update_data_hash` (src/key/index.rs lines
188-215): assert that hash and ref are both present or both absent;
with `last_modified = Some(t)` update `hash`/`persistent_ref` of the
row found by primary key only when the generated filter
`modified = NULL OR modified <= t` accepts it — that is, only when
`modified` is non-NULL and at most `t` (see `modifiedLe`); with
`last_modified = None` update unconditionally.  The periodic
`maybe_flush` only commits the transaction and touches no row. -/
def update_data_hash (table : List KeyRow) (id_ : Nat)
    (last_modified : Option Int) (hash_opt : Option Hash)
    (persistent_ref_opt : Option ChunkRef) : RunResult (List KeyRow) :=
  if hash_opt.isSome ≠ persistent_ref_opt.isSome then
    .panicked .hashRefMismatch
  else
    let k := toI64 id_
    let hash_bytes := hash_opt.map Hash.bytes
    let ref_bytes := persistent_ref_opt.map chunkRefToBytes
    match last_modified with
    | some t =>
      .ok (table.map fun r =>
        if r.id == k && modifiedLe r.modified t then
          { r with hash := hash_bytes, persistent_ref := ref_bytes }
        else r)
    | none =>
      .ok (table.map fun r =>
        if r.id == k then
          { r with hash := hash_bytes, persistent_ref := ref_bytes }
        else r)

/-- The row-to-Entry conversion inside `list_dir`
(src/key/index.rs lines 236-250). -/
def keyToEntry (r : KeyRow) : Entry :=
  { id := some (toU64 r.id),
    parent_id := r.parent.map toU64,
    name := r.name,
    created := r.created,
    modified := r.modified,
    accessed := r.accessed,
    permissions := r.permissions.map toU64,
    user_id := r.user_id.map toU64,
    group_id := r.group_id.map toU64,
    data_hash := r.hash,
    data_length := none }

/-- One output pair of `list_dir`: `none` models the `unwrap` panic on
an unparsable stored `persistent_ref`. -/
def rowToPair (r : KeyRow) : Option (Entry × Option ChunkRef) :=
  match r.persistent_ref with
  | none => some (keyToEntry r, none)
  | some pb =>
    match chunkRefFromBytes pb with
    | some cr => some (keyToEntry r, some cr)
    | none => none

/-- The row selection of `list_dir` (src/key/index.rs lines 224-233):
rows whose `parent` equals the given id, or the NULL-parent rows. -/
def rowsUnder (table : List KeyRow) (parent_opt : Option Nat) : List KeyRow :=
  match parent_opt with
  | some p => table.filter fun r => r.parent == some (toI64 p)
  | none => table.filter fun r => r.parent == none

/-- The per-row conversion loop of `list_dir`: `none` as soon as one
row's stored ref fails to parse (the `unwrap` panic). -/
def pairsOrPanic : List KeyRow → Option (List (Entry × Option ChunkRef))
  | [] => some []
  | r :: rest =>
    match rowToPair r, pairsOrPanic rest with
    | some p, some l => some (p :: l)
    | _, _ => none

/-- `InternalKeyIndex::list_dir` (src/key/index.rs lines 219-256). -/
def list_dir (table : List KeyRow) (parent_opt : Option Nat) :
    RunResult (List (Entry × Option ChunkRef)) :=
  match pairsOrPanic (rowsUnder table parent_opt) with
  | some l => .ok l
  | none => .panicked .badChunkRefBytes

theorem modifiedLe_iff (mo : Option Int) (t : Int) :
    modifiedLe mo t = true ↔ ∃ m, mo = some m ∧ m ≤ t := by
  cases mo <;> simp [modifiedLe]

theorem pairsOrPanic_all_some :
    ∀ rows : List KeyRow,
      (∀ r ∈ rows, (rowToPair r).isSome) →
      ∃ l, pairsOrPanic rows = some l ∧ l.length = rows.length ∧
        ∀ i r, rows.get? i = some r → l.get? i = rowToPair r
  | [], _ => ⟨[], rfl, rfl, by simp⟩
  | r :: rest, hAll => by
    have hr := hAll r (List.mem_cons_self r rest)
    rcases hP : rowToPair r with _ | p
    · rw [hP] at hr
      simp at hr
    · obtain ⟨l, hl, hlen, hpt⟩ := pairsOrPanic_all_some rest
        (fun d hd => hAll d (List.mem_cons_of_mem r hd))
      refine ⟨p :: l, ?_, by simp [hlen], ?_⟩
      · rw [pairsOrPanic, hP, hl]
      · intro i d hd
        cases i with
        | zero =>
          simp at hd
          simp [hd ▸ hP]
        | succ i =>
          simp only [List.get?] at hd ⊢
          exact hpt i d hd

theorem pairsOrPanic_bad :
    ∀ rows : List KeyRow,
      (∃ r ∈ rows, rowToPair r = none) → pairsOrPanic rows = none
  | [], h => by simp at h
  | r :: rest, h => by
    rcases h with ⟨d, hd, hdn⟩
    rcases List.mem_cons.1 hd with hEq | hTl
    · subst hEq
      rw [pairsOrPanic, hdn]
    · rw [pairsOrPanic, pairsOrPanic_bad rest ⟨d, hTl, hdn⟩]
      rcases rowToPair r with _ | p <;> rfl

end KeyIdx

/-- Claim C5: `update_data_hash` with `last_modified = Some(t)` changes
the `hash`/`persistent_ref` columns of the addressed row only if its
stored `modified` is NULL or at most `t` (second conjunct); with
`last_modified = None` the update is unconditional (fifth conjunct);
rows with other ids are never modified (first conjunct).  The third and
fourth conjuncts characterize the actual filter exactly: under the
diesel 0.x/SQLite semantics of the generated
`modified = NULL OR modified <= t`, a row with a NULL `modified` is
never updated when `last_modified` is given — only non-NULL `modified`
at most `t` enables the update. -/
theorem c5_update_data_hash_guard (table : List KeyIdx.KeyRow) (id_ : Nat)
    (last_modified : Option Int) (hash_opt : Option Hash)
    (persistent_ref_opt : Option ChunkRef)
    (hA : hash_opt.isSome = persistent_ref_opt.isSome) :
    ∃ table',
      KeyIdx.update_data_hash table id_ last_modified hash_opt
        persistent_ref_opt = .ok table' ∧
      table'.length = table.length ∧
      ∀ i r r', table.get? i = some r → table'.get? i = some r' →
        (r.id ≠ KeyIdx.toI64 id_ → r' = r) ∧
        (∀ t, last_modified = some t →
          ¬(r.modified = none ∨ ∃ m, r.modified = some m ∧ m ≤ t) →
          r' = r) ∧
        (∀ t, last_modified = some t → r.modified = none → r' = r) ∧
        (∀ t, last_modified = some t → r.id = KeyIdx.toI64 id_ →
          (∃ m, r.modified = some m ∧ m ≤ t) →
          r' = { r with hash := hash_opt.map Hash.bytes,
                        persistent_ref :=
                          persistent_ref_opt.map KeyIdx.chunkRefToBytes }) ∧
        (last_modified = none → r.id = KeyIdx.toI64 id_ →
          r' = { r with hash := hash_opt.map Hash.bytes,
                        persistent_ref :=
                          persistent_ref_opt.map KeyIdx.chunkRefToBytes }) := by
  unfold KeyIdx.update_data_hash
  rw [if_neg (by simp [hA])]
  cases last_modified with
  | some t =>
    refine ⟨_, rfl, by simp, ?_⟩
    intro i r r' hr hr'
    rw [List.get?_map, hr] at hr'
    simp only [Option.map_some'] at hr'
    injection hr' with hr2
    refine ⟨?_, ?_, ?_, ?_, ?_⟩
    · intro hne
      rw [← hr2]
      have hB : (r.id == KeyIdx.toI64 id_) = false := by
        simp [hne]
      simp [hB]
    · intro t' ht hcond
      cases ht
      have hL : KeyIdx.modifiedLe r.modified t = false := by
        rcases hL : KeyIdx.modifiedLe r.modified t
        · rfl
        · exact absurd (Or.inr ((KeyIdx.modifiedLe_iff r.modified t).1 hL))
            hcond
      rw [← hr2]
      simp [hL]
    · intro t' ht hmod
      cases ht
      have hL : KeyIdx.modifiedLe r.modified t = false := by
        rw [hmod]
        rfl
      rw [← hr2]
      simp [hL]
    · intro t' ht hid hcond
      cases ht
      have hL : KeyIdx.modifiedLe r.modified t = true :=
        (KeyIdx.modifiedLe_iff r.modified t).2 hcond
      rw [← hr2]
      simp [hid, hL]
    · intro ht
      cases ht
  | none =>
    refine ⟨_, rfl, by simp, ?_⟩
    intro i r r' hr hr'
    rw [List.get?_map, hr] at hr'
    simp only [Option.map_some'] at hr'
    injection hr' with hr2
    refine ⟨?_, ?_, ?_, ?_, ?_⟩
    · intro hne
      rw [← hr2]
      have hB : (r.id == KeyIdx.toI64 id_) = false := by
        simp [hne]
      simp [hB]
    · intro t ht
      cases ht
    · intro t ht
      cases ht
    · intro t ht
      cases ht
    · intro _ hid
      rw [← hr2]
      simp [hid]

/-- Witness for C5: a one-row table whose `modified = 10` is newer than
`last_modified = 5`, so the row keeps its null hash. -/
theorem c5_witness :
    ((some (Hash.mk [1])).isSome =
      (some (ChunkRef.mk [] 0 0 Kind.treeLeaf)).isSome) ∧
    (∃ table',
      KeyIdx.update_data_hash
        [KeyIdx.KeyRow.mk 1 none [] none (some 10) none none none none
           none none] 1 (some 5) (some (Hash.mk [1]))
        (some (ChunkRef.mk [] 0 0 Kind.treeLeaf)) = .ok table' ∧
      table'.length =
        [KeyIdx.KeyRow.mk 1 none [] none (some 10) none none none none
           none none].length ∧
      ∀ i r r',
        [KeyIdx.KeyRow.mk 1 none [] none (some 10) none none none none
           none none].get? i = some r → table'.get? i = some r' →
        (r.id ≠ KeyIdx.toI64 1 → r' = r) ∧
        (∀ t, (some 5 : Option Int) = some t →
          ¬(r.modified = none ∨ ∃ m, r.modified = some m ∧ m ≤ t) →
          r' = r) ∧
        (∀ t, (some 5 : Option Int) = some t → r.modified = none →
          r' = r) ∧
        (∀ t, (some 5 : Option Int) = some t → r.id = KeyIdx.toI64 1 →
          (∃ m, r.modified = some m ∧ m ≤ t) →
          r' = { r with hash := (some (Hash.mk [1])).map Hash.bytes,
                        persistent_ref :=
                          (some (ChunkRef.mk [] 0 0 Kind.treeLeaf)).map
                            KeyIdx.chunkRefToBytes }) ∧
        ((some 5 : Option Int) = none → r.id = KeyIdx.toI64 1 →
          r' = { r with hash := (some (Hash.mk [1])).map Hash.bytes,
                        persistent_ref :=
                          (some (ChunkRef.mk [] 0 0 Kind.treeLeaf)).map
                            KeyIdx.chunkRefToBytes })) :=
  ⟨by decide,
   c5_update_data_hash_guard
     [KeyIdx.KeyRow.mk 1 none [] none (some 10) none none none none
        none none] 1 (some 5) (some (Hash.mk [1]))
     (some (ChunkRef.mk [] 0 0 Kind.treeLeaf)) (by decide)⟩

/-- Claim C9: `insert` on an entry that already has an id updates only
the `parent`, `name`, `created`, `modified`, `accessed` columns of the
addressed row; `permissions`, `user_id`, `group_id`, `hash` and
`persistent_ref` of that row, and all other rows, are unchanged; the
returned entry equals the input. -/
theorem c9_insert_existing_frame (table : List KeyIdx.KeyRow)
    (entry : KeyIdx.Entry) (id_ : Nat) (hid : entry.id = some id_) :
    (KeyIdx.insert table entry).2 = entry ∧
    (KeyIdx.insert table entry).1.length = table.length ∧
    ∀ i r r', table.get? i = some r →
      (KeyIdx.insert table entry).1.get? i = some r' →
      (r.id ≠ KeyIdx.toI64 id_ → r' = r) ∧
      (r.id = KeyIdx.toI64 id_ →
        r'.permissions = r.permissions ∧ r'.user_id = r.user_id ∧
        r'.group_id = r.group_id ∧ r'.hash = r.hash ∧
        r'.persistent_ref = r.persistent_ref ∧ r'.id = r.id ∧
        r'.parent = entry.parent_id.map KeyIdx.toI64 ∧
        r'.name = entry.name ∧ r'.created = entry.created ∧
        r'.modified = entry.modified ∧ r'.accessed = entry.accessed) := by
  unfold KeyIdx.insert
  rw [hid]
  refine ⟨rfl, by simp, ?_⟩
  intro i r r' hr hr'
  rw [List.get?_map, hr] at hr'
  simp only [Option.map_some'] at hr'
  injection hr' with hr2
  constructor
  · intro hne
    rw [← hr2]
    simp [hne]
  · intro hEq
    rw [← hr2]
    simp [hEq]

/-- Witness for C9: updating the row with id 3 leaves its ownership and
hash columns alone. -/
theorem c9_witness :
    (KeyIdx.Entry.mk (some 3) none [4] (some 1) (some 2) (some 3) none
       none none none none).id = some 3 ∧
    ((KeyIdx.insert
        [KeyIdx.KeyRow.mk 3 none [] none none none (some 7) (some 8)
           (some 9) (some [1]) none]
        (KeyIdx.Entry.mk (some 3) none [4] (some 1) (some 2) (some 3)
           none none none none none)).2 =
      KeyIdx.Entry.mk (some 3) none [4] (some 1) (some 2) (some 3) none
        none none none none ∧
     (KeyIdx.insert
        [KeyIdx.KeyRow.mk 3 none [] none none none (some 7) (some 8)
           (some 9) (some [1]) none]
        (KeyIdx.Entry.mk (some 3) none [4] (some 1) (some 2) (some 3)
           none none none none none)).1.length =
      [KeyIdx.KeyRow.mk 3 none [] none none none (some 7) (some 8)
         (some 9) (some [1]) none].length ∧
     ∀ i r r',
       [KeyIdx.KeyRow.mk 3 none [] none none none (some 7) (some 8)
          (some 9) (some [1]) none].get? i = some r →
       (KeyIdx.insert
          [KeyIdx.KeyRow.mk 3 none [] none none none (some 7) (some 8)
             (some 9) (some [1]) none]
          (KeyIdx.Entry.mk (some 3) none [4] (some 1) (some 2) (some 3)
             none none none none none)).1.get? i = some r' →
       (r.id ≠ KeyIdx.toI64 3 → r' = r) ∧
       (r.id = KeyIdx.toI64 3 →
         r'.permissions = r.permissions ∧ r'.user_id = r.user_id ∧
         r'.group_id = r.group_id ∧ r'.hash = r.hash ∧
         r'.persistent_ref = r.persistent_ref ∧ r'.id = r.id ∧
         r'.parent = (KeyIdx.Entry.mk (some 3) none [4] (some 1) (some 2)
             (some 3) none none none none none).parent_id.map
             KeyIdx.toI64 ∧
         r'.name = [4] ∧ r'.created = some 1 ∧ r'.modified = some 2 ∧
         r'.accessed = some 3)) :=
  ⟨rfl,
   c9_insert_existing_frame
     [KeyIdx.KeyRow.mk 3 none [] none none none (some 7) (some 8)
        (some 9) (some [1]) none]
     (KeyIdx.Entry.mk (some 3) none [4] (some 1) (some 2) (some 3) none
        none none none none) 3 rfl⟩

/-- Claim C10: `list_dir` returns one `(Entry, Option<ChunkRef>)` pair
per row under the given parent when every stored `persistent_ref`
parses; if any stored ref fails to parse it panics (the `unwrap`)
instead of returning a serialization error. -/
theorem c10_list_dir_unwrap (table : List KeyIdx.KeyRow)
    (parent_opt : Option Nat) :
    ((∀ r ∈ KeyIdx.rowsUnder table parent_opt,
        ∀ pb, r.persistent_ref = some pb →
          (KeyIdx.chunkRefFromBytes pb).isSome) →
      ∃ l, KeyIdx.list_dir table parent_opt = .ok l ∧
        l.length = (KeyIdx.rowsUnder table parent_opt).length ∧
        ∀ i r, (KeyIdx.rowsUnder table parent_opt).get? i = some r →
          l.get? i = KeyIdx.rowToPair r) ∧
    ((∃ r ∈ KeyIdx.rowsUnder table parent_opt,
        ∃ pb, r.persistent_ref = some pb ∧
          KeyIdx.chunkRefFromBytes pb = none) →
      KeyIdx.list_dir table parent_opt = .panicked .badChunkRefBytes) := by
  constructor
  · intro hAll
    have hSome : ∀ r ∈ KeyIdx.rowsUnder table parent_opt,
        (KeyIdx.rowToPair r).isSome := by
      intro r hr
      unfold KeyIdx.rowToPair
      rcases hP : r.persistent_ref with _ | pb
      · simp
      · have := hAll r hr pb hP
        rcases hC : KeyIdx.chunkRefFromBytes pb with _ | cr
        · rw [hC] at this
          simp at this
        · simp [hC]
    obtain ⟨l, hl, hlen, hpt⟩ :=
      KeyIdx.pairsOrPanic_all_some (KeyIdx.rowsUnder table parent_opt) hSome
    refine ⟨l, ?_, hlen, hpt⟩
    unfold KeyIdx.list_dir
    rw [hl]
  · intro hBad
    rcases hBad with ⟨r, hr, pb, hpb, hbad⟩
    have : KeyIdx.rowToPair r = none := by
      unfold KeyIdx.rowToPair
      rw [hpb]
      simp [hbad]
    have hNone := KeyIdx.pairsOrPanic_bad (KeyIdx.rowsUnder table parent_opt)
      ⟨r, hr, this⟩
    unfold KeyIdx.list_dir
    rw [hNone]

/-- Witness for C10: a root-level row whose stored ref is the single
byte `[0]` cannot be parsed, so listing panics. -/
theorem c10_witness :
    (∃ r ∈ KeyIdx.rowsUnder
        [KeyIdx.KeyRow.mk 1 none [] none none none none none none none
           (some [0])] none,
      ∃ pb, r.persistent_ref = some pb ∧
        KeyIdx.chunkRefFromBytes pb = none) ∧
    KeyIdx.list_dir
      [KeyIdx.KeyRow.mk 1 none [] none none none none none none none
         (some [0])] none = .panicked .badChunkRefBytes :=
  ⟨⟨KeyIdx.KeyRow.mk 1 none [] none none none none none none none
      (some [0]), by decide, [0], rfl, by decide⟩,
   (c10_list_dir_unwrap
      [KeyIdx.KeyRow.mk 1 none [] none none none none none none none
         (some [0])] none).2
     ⟨KeyIdx.KeyRow.mk 1 none [] none none none none none none none
        (some [0]), by decide, [0], rfl, by decide⟩⟩

namespace Walk

/-!
Embedding of `PathHandler::recurse` (src/util/listdir.rs lines 43-107)
and its built-in test handler (lines 172-189).

A filesystem subtree is encoded as the entry list of a directory:
`nilE` is the empty listing, `consErr rest` an entry whose read yields
`Err` (skipped with a warning by the worker), and
`consOk nm readable children rest` an `Ok` entry named `nm` whose own
listing is `children` and whose `read_dir` succeeds iff `readable`.
Paths are name lists.  As in the test handler, `handle_path` visits the
entry's path and returns a payload (requesting recursion) exactly when
the entry's own listing is non-empty.

The master loop is modelled exactly as in the source: a FIFO channel of
`Done`/`More` messages, an `active_workers` counter starting at `0`,
one seeded `More(root)`, increment and worker dispatch on `More`,
decrement on `Done` with termination when the counter reaches zero.  A
dispatched worker's sends (child `More`s in listing order, then its
`Done`) are delivered as one batch; `loopF` carries explicit fuel, and
a `none` result means the loop either deadlocked or ran out of fuel, so
a `some` result is a termination proof.
-/

/-- A directory listing (see the namespace doc comment). -/
inductive FsTree where
  | nilE : FsTree
  | consErr (rest : FsTree) : FsTree
  | consOk (nm : Nat) (readable : Bool) (children : FsTree) (rest : FsTree) :
      FsTree
deriving DecidableEq, Repr

/-- The channel messages (`enum Work` in the source): `Done` or
`More(path, payload)`; the payload of a pushed directory is its own
listing plus its readability. -/
inductive Work where
  | done : Work
  | more (p : List Nat) (readable : Bool) (t : FsTree) : Work
deriving DecidableEq, Repr

/-- Node count of a listing (at least 1). -/
def size : FsTree → Nat
  | .nilE => 1
  | .consErr rest => 1 + size rest
  | .consOk _ _ c rest => 1 + size c + size rest

/-- Fuel weight of one message. -/
def wsize : Work → Nat
  | .done => 1
  | .more _ _ t => 2 * size t

/-- Fuel weight of a queue. -/
def qsize (ws : List Work) : Nat :=
  (ws.map wsize).sum

/-- The paths `handle_path` is invoked on while a worker iterates one
readable listing: every `Ok` entry, in order; `Err` entries are skipped. -/
def visitsL (p : List Nat) : FsTree → List (List Nat)
  | .nilE => []
  | .consErr rest => visitsL p rest
  | .consOk nm _ _ rest => (p ++ [nm]) :: visitsL p rest

/-- The `More` messages a worker pushes while iterating one readable
listing: one per `Ok` entry whose own listing is non-empty (the test
handler returns `Some` exactly for those), in order. -/
def pushesL (p : List Nat) : FsTree → List Work
  | .nilE => []
  | .consErr rest => pushesL p rest
  | .consOk nm rb c rest =>
    (if c = .nilE then [] else [.more (p ++ [nm]) rb c]) ++ pushesL p rest

/-- A worker's full output on `More(p, readable, t)`: the visited paths
and the batch of messages it sends (child `More`s then its `Done`).  If
`read_dir` fails (`readable = false`) the directory is skipped with a
warning and only `Done` is sent. -/
def workerOut (p : List Nat) (readable : Bool) (t : FsTree) :
    List (List Nat) × List Work :=
  if readable then (visitsL p t, pushesL p t ++ [.done])
  else ([], [.done])

/-- The master loop of `recurse` with explicit fuel: receive from the
front of the FIFO queue; on `Done` decrement and stop at zero; on
`More` increment, deliver the worker's batch at the back, and record
its visits.  `none` = fuel exhausted or empty channel (deadlock). -/
def loopF : Nat → List Work → Nat → List (List Nat) →
    Option (List (List Nat))
  | 0, _, _, _ => none
  | _ + 1, [], _, _ => none
  | fuel + 1, .done :: rest, active, visited =>
    if active - 1 = 0 then some visited
    else loopF fuel rest (active - 1) visited
  | fuel + 1, .more p rb t :: rest, active, visited =>
    loopF fuel (rest ++ (workerOut p rb t).2) (active + 1)
      (visited ++ (workerOut p rb t).1)

/-- `PathHandler::recurse` on a root directory with listing `t` whose
`read_dir` succeeds iff `rootReadable`: seed `More(root)`, start the
counter at 0, and run the master loop.  The fuel `2 * size t + 2`
suffices (see `loopF_run`). -/
def recurse (rootReadable : Bool) (t : FsTree) : Option (List (List Nat)) :=
  loopF (2 * size t + 2) [.more [] rootReadable t] 0 []

/-- The paths a traversal of a readable listing eventually visits:
every `Ok` entry, plus, recursively, the reachable paths of entries
with non-empty readable listings; `Err` entries and the contents of
unreadable directories contribute nothing. -/
def reachL (p : List Nat) : FsTree → List (List Nat)
  | .nilE => []
  | .consErr rest => reachL p rest
  | .consOk nm rb c rest =>
    ((p ++ [nm]) :: (if rb then reachL (p ++ [nm]) c else [])) ++
      reachL p rest

/-- Reachable paths below a directory, given its own readability. -/
def reach (p : List Nat) (readable : Bool) (t : FsTree) :
    List (List Nat) :=
  if readable then reachL p t else []

/-- Paths eventually visited because of one queued message. -/
def wreach : Work → List (List Nat)
  | .done => []
  | .more p rb t => reach p rb t

/-- Paths eventually visited because of a whole queue. -/
def qreach (ws : List Work) : List (List Nat) :=
  (ws.map wreach).flatten

/-- Number of `Done` messages in a queue. -/
def countDone : List Work → Nat
  | [] => 0
  | .done :: rest => 1 + countDone rest
  | .more _ _ _ :: rest => countDone rest

/-- A queue contains a `Done`. -/
def hasDone (ws : List Work) : Prop :=
  Work.done ∈ ws

/-- FIFO invariant: every `More` message is followed, later in the
queue, by at least one `Done` (each worker sends its child `More`s
before its own `Done`, and the channel preserves send order). -/
def moreTailed : List Work → Prop
  | [] => True
  | .done :: rest => moreTailed rest
  | .more _ _ _ :: rest => hasDone rest ∧ moreTailed rest

/-- An error-free tree: no `Err` entries and every entry with a
non-empty listing is readable. -/
def errFree : FsTree → Bool
  | .nilE => true
  | .consErr _ => false
  | .consOk _ rb c rest => (rb || (c = .nilE)) && errFree c && errFree rest

/-- All proper descendant paths of a directory listing (what a complete
traversal must visit: everything except the root itself). -/
def properPaths (p : List Nat) : FsTree → List (List Nat)
  | .nilE => []
  | .consErr rest => properPaths p rest
  | .consOk nm _ c rest =>
    (p ++ [nm]) :: (properPaths (p ++ [nm]) c ++ properPaths p rest)

theorem size_pos (t : FsTree) : 1 ≤ size t := by
  cases t <;> simp [size] <;> omega

theorem qsize_append (a b : List Work) :
    qsize (a ++ b) = qsize a + qsize b := by
  simp [qsize]

theorem qreach_append (a b : List Work) :
    qreach (a ++ b) = qreach a ++ qreach b := by
  simp [qreach]

theorem countDone_append (a b : List Work) :
    countDone (a ++ b) = countDone a + countDone b := by
  induction a with
  | nil => simp [countDone]
  | cons w rest ih => cases w <;> simp [countDone, ih] <;> omega

theorem countDone_pushes (p : List Nat) :
    ∀ t, countDone (pushesL p t) = 0
  | .nilE => rfl
  | .consErr rest => by
    simpa [pushesL] using countDone_pushes p rest
  | .consOk nm rb c rest => by
    have ih := countDone_pushes p rest
    by_cases hc : c = .nilE <;>
      simp [pushesL, hc, countDone_append, countDone, ih]

theorem hasDone_countDone_pos :
    ∀ ws : List Work, hasDone ws → 0 < countDone ws
  | [], h => by cases h
  | .done :: rest, _ => by simp [countDone]
  | .more p rb t :: rest, h => by
    rcases List.mem_cons.1 h with hEq | hTl
    · cases hEq
    · simpa [countDone] using hasDone_countDone_pos rest hTl

theorem moreTailed_concat_done : ∀ ws : List Work, moreTailed (ws ++ [.done])
  | [] => trivial
  | .done :: rest => moreTailed_concat_done rest
  | .more p rb t :: rest =>
    ⟨List.mem_append_right _ (List.mem_singleton_self _),
     moreTailed_concat_done rest⟩

theorem moreTailed_append :
    ∀ a : List Work, ∀ {b : List Work}, hasDone b → moreTailed b →
      moreTailed (a ++ b)
  | [], _, _, hmb => hmb
  | .done :: rest, _, hb, hmb => moreTailed_append rest hb hmb
  | .more p rb t :: rest, _, hb, hmb =>
    ⟨List.mem_append_right _ hb, moreTailed_append rest hb hmb⟩

theorem moreTailed_empty_of_countDone_zero :
    ∀ ws : List Work, moreTailed ws → countDone ws = 0 → ws = []
  | [], _, _ => rfl
  | .done :: rest, _, hc => by simp [countDone] at hc
  | .more p rb t :: rest, hm, hc => by
    have h1 := hasDone_countDone_pos rest hm.1
    simp [countDone] at hc
    omega

theorem qsize_pushes (p : List Nat) :
    ∀ t, qsize (pushesL p t) + 2 ≤ 2 * size t
  | .nilE => by simp [pushesL, qsize, size]
  | .consErr rest => by
    have ih := qsize_pushes p rest
    simp only [pushesL, size]
    omega
  | .consOk nm rb c rest => by
    have ihr := qsize_pushes p rest
    have hc1 := size_pos c
    by_cases hc : c = .nilE
    · simp only [pushesL, hc, if_true, List.nil_append, size]
      omega
    · simp only [pushesL, hc, if_false, qsize_append, size]
      have : qsize [Work.more (p ++ [nm]) rb c] = 2 * size c := by
        simp [qsize, wsize]
      omega

theorem push_reach (p : List Nat) (nm : Nat) (rb : Bool) (c : FsTree) :
    qreach (if c = FsTree.nilE then [] else [.more (p ++ [nm]) rb c]) =
      (if rb then reachL (p ++ [nm]) c else []) := by
  by_cases hc : c = .nilE
  · subst hc
    cases rb <;> simp [qreach, reachL, reach]
  · cases rb <;> simp [hc, qreach, wreach, reach]

theorem worker_reach (p : List Nat) :
    ∀ t, (visitsL p t ++ qreach (pushesL p t)).Perm (reachL p t)
  | .nilE => by simp [visitsL, pushesL, qreach, reachL]
  | .consErr rest => by
    simpa [visitsL, pushesL, reachL] using worker_reach p rest
  | .consOk nm rb c rest => by
    have ih := worker_reach p rest
    simp only [visitsL, pushesL, reachL, qreach_append, push_reach]
    generalize (if rb then reachL (p ++ [nm]) c else []) = X
    rw [List.cons_append, List.cons_append]
    refine List.Perm.cons _ ?_
    rw [← List.append_assoc]
    refine (List.perm_append_comm.append_right _).trans ?_
    rw [List.append_assoc]
    exact ih.append_left X

theorem workerOut_snd (p : List Nat) (rb : Bool) (t : FsTree) :
    (workerOut p rb t).2 = (if rb then pushesL p t else []) ++ [.done] := by
  cases rb <;> simp [workerOut]

theorem workerOut_fst (p : List Nat) (rb : Bool) (t : FsTree) :
    (workerOut p rb t).1 = (if rb then visitsL p t else []) := by
  cases rb <;> simp [workerOut]

theorem workerOut_reach (p : List Nat) (rb : Bool) (t : FsTree) :
    ((workerOut p rb t).1 ++
      qreach (if rb then pushesL p t else [])).Perm (reach p rb t) := by
  cases rb
  · simp [workerOut, qreach, reach]
  · simpa [workerOut, reach] using worker_reach p t

theorem loopF_run :
    ∀ (fuel : Nat) (queue : List Work) (active : Nat)
      (visited : List (List Nat)),
      qsize queue < fuel →
      queue ≠ [] →
      active = countDone queue →
      moreTailed queue →
      ∃ out, loopF fuel queue active visited = some out ∧
        out.Perm (visited ++ qreach queue) := by
  intro fuel
  induction fuel with
  | zero =>
    intro queue active visited hfuel
    omega
  | succ fuel ih =>
    intro queue active visited hfuel hne hact hmt
    rcases queue with _ | ⟨w, rest⟩
    · exact absurd rfl hne
    cases w with
    | done =>
      have hact' : active = 1 + countDone rest := by
        simpa [countDone] using hact
      have hmt' : moreTailed rest := hmt
      have hfuel' : 1 + qsize rest < fuel + 1 := by
        simpa [qsize, wsize] using hfuel
      by_cases hz : countDone rest = 0
      · have hrest : rest = [] :=
          moreTailed_empty_of_countDone_zero rest hmt' hz
        subst hrest
        refine ⟨visited, ?_, ?_⟩
        · simp only [loopF]
          rw [if_pos (by omega)]
        · simp [qreach, wreach]
      · refine ?_
        have hne' : rest ≠ [] := by
          intro hE
          rw [hE] at hz
          exact hz rfl
        obtain ⟨out, hrun, hperm⟩ := ih rest (active - 1) visited
          (by omega) hne' (by omega) hmt'
        refine ⟨out, ?_, ?_⟩
        · simp only [loopF]
          rw [if_neg (by omega)]
          exact hrun
        · simpa [qreach, wreach] using hperm
    | more p rb t =>
      have hact' : active = countDone rest := by
        simpa [countDone] using hact
      have hfuel' : 2 * size t + qsize rest < fuel + 1 := by
        simpa [qsize, wsize] using hfuel
      have hQ2 := workerOut_snd p rb t
      have hQp : qsize (if rb then pushesL p t else []) + 2 ≤ 2 * size t := by
        cases rb
        · have := size_pos t
          simp [qsize]
          omega
        · simpa using qsize_pushes p t
      have hCp : countDone (if rb then pushesL p t else []) = 0 := by
        cases rb
        · rfl
        · simpa using countDone_pushes p t
      set pushes := (if rb then pushesL p t else []) with hPdef
      have hqn : qsize (rest ++ (workerOut p rb t).2) < fuel := by
        rw [hQ2, qsize_append, qsize_append]
        have : qsize [Work.done] = 1 := by simp [qsize, wsize]
        omega
      have hnen : rest ++ (workerOut p rb t).2 ≠ [] := by
        rw [hQ2]
        intro hE
        have := congrArg List.length hE
        simp at this
      have hactn : active + 1 = countDone (rest ++ (workerOut p rb t).2) := by
        rw [hQ2, countDone_append, countDone_append]
        have : countDone [Work.done] = 1 := by simp [countDone]
        omega
      have hmtn : moreTailed (rest ++ (workerOut p rb t).2) := by
        rw [hQ2]
        exact moreTailed_append rest
          (List.mem_append_right _ (List.mem_singleton_self _))
          (moreTailed_concat_done pushes)
      obtain ⟨out, hrun, hperm⟩ :=
        ih (rest ++ (workerOut p rb t).2) (active + 1)
          (visited ++ (workerOut p rb t).1) hqn hnen hactn hmtn
      refine ⟨out, ?_, ?_⟩
      · simp only [loopF]
        exact hrun
      · have hdecomp : qreach (rest ++ (workerOut p rb t).2) =
            qreach rest ++ qreach pushes := by
          rw [hQ2, qreach_append, qreach_append]
          simp [qreach, wreach]
        rw [hdecomp] at hperm
        refine hperm.trans ?_
        have hW := workerOut_reach p rb t
        rw [List.append_assoc]
        have e2 : qreach (Work.more p rb t :: rest) =
            reach p rb t ++ qreach rest := by
          simp [qreach, wreach]
        rw [e2]
        refine List.Perm.append_left visited ?_
        refine ((List.perm_append_comm).append_left _).trans ?_
        rw [← List.append_assoc]
        exact hW.append_right _

theorem recurse_run (rb : Bool) (t : FsTree) :
    ∃ out, recurse rb t = some out ∧ out.Perm (reach [] rb t) := by
  have hstep : recurse rb t =
      loopF (2 * size t + 1) ((workerOut [] rb t).2) 1
        ((workerOut [] rb t).1) := rfl
  have hQ2 := workerOut_snd [] rb t
  have hQp : qsize (if rb then pushesL [] t else []) + 2 ≤ 2 * size t := by
    cases rb
    · have := size_pos t
      simp [qsize]
      omega
    · simpa using qsize_pushes [] t
  have hCp : countDone (if rb then pushesL [] t else []) = 0 := by
    cases rb
    · rfl
    · simpa using countDone_pushes [] t
  have hq : qsize ((workerOut [] rb t).2) < 2 * size t + 1 := by
    rw [hQ2, qsize_append]
    have : qsize [Work.done] = 1 := by simp [qsize, wsize]
    omega
  have hne : (workerOut [] rb t).2 ≠ [] := by
    rw [hQ2]
    intro hE
    have := congrArg List.length hE
    simp at this
  have hact : 1 = countDone ((workerOut [] rb t).2) := by
    rw [hQ2, countDone_append]
    have : countDone [Work.done] = 1 := by simp [countDone]
    omega
  have hmt : moreTailed ((workerOut [] rb t).2) := by
    rw [hQ2]
    exact moreTailed_concat_done _
  obtain ⟨out, hrun, hperm⟩ := loopF_run (2 * size t + 1)
    ((workerOut [] rb t).2) 1 ((workerOut [] rb t).1) hq hne hact hmt
  refine ⟨out, hstep ▸ hrun, ?_⟩
  have hdecomp : qreach ((workerOut [] rb t).2) =
      qreach (if rb then pushesL [] t else []) := by
    rw [hQ2, qreach_append]
    simp [qreach, wreach]
  rw [hdecomp] at hperm
  exact hperm.trans (workerOut_reach [] rb t)

theorem reachL_errFree (p : List Nat) :
    ∀ t, errFree t = true → reachL p t = properPaths p t
  | .nilE, _ => rfl
  | .consErr rest, h => by simp [errFree] at h
  | .consOk nm rb c rest, h => by
    simp only [errFree, Bool.and_eq_true, Bool.or_eq_true] at h
    obtain ⟨⟨h1, h2⟩, h3⟩ := h
    have ihr := reachL_errFree p rest h3
    rcases h1 with hrb | hcn
    · have ihc := reachL_errFree (p ++ [nm]) c h2
      simp [reachL, properPaths, hrb, ihc, ihr]
    · have hc : c = .nilE := by simpa using hcn
      subst hc
      cases rb <;> simp [reachL, properPaths, ihr]

end Walk

/-- Claim C6: over any finite, fully readable, error-free directory
tree, `recurse` terminates (the `active_workers` counter protocol —
counter from 0, one seeded `More`, increment on `More`, decrement on
`Done`, stop at zero — drains exactly when all transitively spawned
work is done, which the fuelled loop returning `some` witnesses), and
`handle_path` is invoked exactly once for every path in the tree except
the root: the visit list is a permutation of the proper descendant
paths. -/
theorem c6_walk_terminates_visits_all (t : Walk.FsTree)
    (hEF : Walk.errFree t = true) :
    ∃ out, Walk.recurse true t = some out ∧
      out.Perm (Walk.properPaths [] t) := by
  obtain ⟨out, hrun, hperm⟩ := Walk.recurse_run true t
  refine ⟨out, hrun, ?_⟩
  have hR : Walk.reach [] true t = Walk.properPaths [] t := by
    simp [Walk.reach, Walk.reachL_errFree [] t hEF]
  rw [← hR]
  exact hperm

/-- Witness for C6: a three-entry tree (a readable directory with one
file, and one file) is fully visited, once per path. -/
theorem c6_witness :
    Walk.errFree
      (Walk.FsTree.consOk 0 true
        (Walk.FsTree.consOk 1 true .nilE .nilE)
        (Walk.FsTree.consOk 2 false .nilE .nilE)) = true ∧
    (∃ out, Walk.recurse true
        (Walk.FsTree.consOk 0 true
          (Walk.FsTree.consOk 1 true .nilE .nilE)
          (Walk.FsTree.consOk 2 false .nilE .nilE)) = some out ∧
      out.Perm (Walk.properPaths []
        (Walk.FsTree.consOk 0 true
          (Walk.FsTree.consOk 1 true .nilE .nilE)
          (Walk.FsTree.consOk 2 false .nilE .nilE)))) :=
  ⟨by decide,
   c6_walk_terminates_visits_all
     (Walk.FsTree.consOk 0 true
       (Walk.FsTree.consOk 1 true .nilE .nilE)
       (Walk.FsTree.consOk 2 false .nilE .nilE)) (by decide)⟩

/-- Claim C7: on any tree, including ones with unreadable directories
and `Err` entries, the traversal still terminates (every worker sends
its `Done`, so the counter drains and the loop returns `some`), and the
visit list is a permutation of the reachable paths: an `Err` entry is
skipped while the remaining entries of the same listing and the rest of
the tree are still visited, and an unreadable directory only prunes its
own contents (`reachL` recurses past `consErr` and `reach` of an
unreadable directory is empty). -/
theorem c7_walk_skips_errors (rb : Bool) (t : Walk.FsTree) :
    ∃ out, Walk.recurse rb t = some out ∧
      out.Perm (Walk.reach [] rb t) :=
  Walk.recurse_run rb t

end Hat
